import Mathlib

/-!
Verification of the raster-tilecutter pipeline: a shallow embedding of the
tile sampler (tiles.py), the lossless PNG pixel encoders (png.py, rgb.py),
the indexed-raster builder and attribute checker (raster.py), and the
directory-tree sink decision (disk.py), together with theorems settling the
behavioural claims about those components.

Conventions of the embedding:
* numpy 2-D arrays are `List (List _)`; cell values are `ℕ` for the unsigned
  pixel encoders and `ℤ` for raw raster samples;
* masked arrays carry an explicit boolean mask (`true` = masked);
* geographic coordinates and resolutions are exact rationals `ℚ`;
* Python functions that can raise return `Except String _`; the message keeps
  the flavour of the exception raised by the source.
-/

namespace Tilecutter

/-- Cell accessor for a list-of-rows matrix, with an explicit default. -/
def cellD {α : Type} (d : List (List α)) (i j : ℕ) (v0 : α) : α :=
  (d.getD i []).getD j v0

/-! ### rgb.py -/

/-- Little-endian byte view of a 32-bit unsigned value, as produced by
numpy `view("uint8")` of a uint32 array on the (little-endian) platforms the
package targets. -/
def uint32Bytes (v : ℕ) : List ℕ :=
  [v % 256, v / 256 % 256, v / 65536 % 256, v / 16777216 % 256]

/-- Per-pixel body of `to_rgb_array`: cast to uint32, view the 4 bytes,
keep the first 3 (`[..., :3]`, i.e. B, G, R little-endian) and flip the
innermost axis (`[..., ::-1]`) to obtain the `[R, G, B]` triple. -/
def toRgbPixel (v : ℕ) : List ℕ :=
  ((uint32Bytes (v % 4294967296)).take 3).reverse

/-- Embedding of `to_rgb_array` (rgb.py): convert 2-D integer values to RGB
triples. -/
def to_rgb_array (arr : List (List ℕ)) : List (List (List ℕ)) :=
  arr.map (fun row => row.map toRgbPixel)

/-- Decoding of one packed pixel as `R * 65536 + G * 256 + B`, the inverse
direction claimed for the 24-bit packing. -/
def decodeRgbPixel (p : List ℕ) : ℕ :=
  p.getD 0 0 * 65536 + p.getD 1 0 * 256 + p.getD 2 0

/-! ### Masked arrays (numpy.ma) -/

/-- A possibly-masked 2-D unsigned integer array: data plus a boolean mask
(`true` marks a masked = no-data cell).  A plain ndarray is modelled by an
all-`false` mask. -/
structure MArr where
  data : List (List ℕ)
  mask : List (List Bool)
deriving DecidableEq

/-- Embedding of `numpy.ma.core.is_masked`: true when the array has at least
one masked cell. -/
def is_masked (a : MArr) : Bool :=
  a.mask.any (fun row => row.any (fun b => b))

/-- The mask has exactly the shape of the data (row count and per-row
lengths agree). -/
def maskShapeOk : List (List ℕ) → List (List Bool) → Bool
  | [], [] => true
  | drow :: ds, mrow :: ms => (drow.length == mrow.length) && maskShapeOk ds ms
  | _, _ => false

/-- A well-formed masked array: the mask has the shape of the data. -/
def wellFormed (a : MArr) : Prop :=
  maskShapeOk a.data a.mask = true

instance (a : MArr) : Decidable (wellFormed a) := by
  unfold wellFormed; infer_instance

/-- The unmasked (valid) values of one row. -/
def filterUnmasked (drow : List ℕ) (mrow : List Bool) : List ℕ :=
  (List.zip drow mrow).filterMap (fun p => if p.2 = true then none else some p.1)

/-- The unmasked (valid) cells of a data/mask pair, row-major. -/
def unmaskedOf (d : List (List ℕ)) (m : List (List Bool)) : List ℕ :=
  (List.zipWith filterUnmasked d m).foldr (fun r acc => r ++ acc) []

/-- The unmasked (valid) cells of the array, row-major. -/
def unmaskedCells (a : MArr) : List ℕ :=
  unmaskedOf a.data a.mask

/-- The array carries at least one unmasked cell. -/
def hasUnmasked (a : MArr) : Bool :=
  !(unmaskedCells a).isEmpty

/-- Embedding of `arr.max()` on a (possibly) masked array: the maximum over
the unmasked cells (numpy ignores masked cells). -/
def mmax (a : MArr) : ℕ :=
  (unmaskedCells a).foldr max 0

/-- Embedding of `arr.filled(v)`: replace every masked cell by `v`. -/
def filled (a : MArr) (v : ℕ) : List (List ℕ) :=
  List.zipWith
    (fun drow mrow => List.zipWith (fun x m => if m then v else x) drow mrow)
    a.data a.mask

/-! ### raster.py -/

/-- Result of `to_indexed_tif`: the single uint8 output band plus the
`nodata` value recorded in the output metadata. -/
structure IndexedTif where
  band : List (List ℕ)
  nodata : ℕ
deriving DecidableEq

/-- The Python loop `for index, value in enumerate(values): out[data == value] = index`
seen from a single cell holding `v`: starting from `acc` (the fill value),
each index whose value equals `v` overwrites the accumulator, so the last
matching index wins. -/
def assignLoop (values : List ℤ) (v : ℤ) (i acc : ℕ) : ℕ :=
  match values with
  | [] => acc
  | w :: rest => assignLoop rest v (i + 1) (if w = v then i else acc)

/-- Final index assigned to a cell of value `v` by `to_indexed_tif`:
`len(values)` (the fill) unless some listed value equals `v`. -/
def assignIndexed (values : List ℤ) (v : ℤ) : ℕ :=
  assignLoop values v 0 values.length

/-- Embedding of `to_indexed_tif` (raster.py).  `data` is the single source
band as read raw by `src.read(1)` (so source no-data cells simply hold
`srcNodata`, which the function never consults when assigning indices; it
only sets the output metadata nodata to `len(values)`). -/
def to_indexed_tif (data : List (List ℤ)) (srcNodata : ℤ) (values : List ℤ) :
    Except String IndexedTif :=
  let nodata_value := values.length
  if nodata_value > 255 then
    Except.error ("There must be less than 255 values to create an indexed tif")
  else
    Except.ok
      { band := data.map (fun row => row.map (fun v => assignIndexed values v))
        nodata := nodata_value }

/-- A raster as seen by `has_matching_attributes`: an opaque bag of
string-convertible attributes. -/
structure Raster where
  attrs : String → String

/-- Embedding of `has_matching_attributes` (raster.py).  The loop body reads
`getattr(src, att)` but `att` is an unbound name (the parameter is called
`attribute`), so the first iteration raises `NameError`; an empty iterable
never enters the loop and returns `True`. -/
def has_matching_attributes (rasters : List Raster) (attr : String) :
    Except String Bool :=
  match rasters with
  | [] => Except.ok true
  | _ :: _ => Except.error ("NameError: name att is not defined")

/-! ### disk.py -/

/-- A tile file written by the directory-tree sink, identified by the path
components `outpath/z/x/y.png` (the code formats the path with the unflipped
`tile.y`). -/
structure TileFile where
  z : ℕ
  x : ℕ
  y : ℕ
deriving DecidableEq

/-- Embedding of the guard `np.all(data == src.nodata)` in `tif_to_tiles`,
where `data` is the value yielded by `read_tiles` and may be `None` (the
all-nodata sentinel).  In Python `None == nodata` is the scalar `False`, so
`np.all` returns `False` for the sentinel. -/
def pyAllEqNodata (data : Option (List (List ℤ))) (nodata : ℤ) : Bool :=
  match data with
  | none => false
  | some d => d.all (fun row => row.all (fun v => v = nodata))

/-- Embedding of the per-tile body of `tif_to_tiles` (disk.py): when the
guard `not np.all(data == src.nodata)` passes, the code calls
`tile_renderer(data)` and writes the result to `outpath/z/x/y.png`.  For the
all-nodata sentinel (`data = None`) the guard still passes, and the default
renderer `to_smallest_png(None)` raises `AttributeError` at `arr.dtype`. -/
def tif_to_tiles_step (z x y : ℕ) (data : Option (List (List ℤ))) (nodata : ℤ) :
    Except String (Option TileFile) :=
  if pyAllEqNodata data nodata = false then
    match data with
    | none => Except.error ("AttributeError: NoneType object has no attribute dtype")
    | some _ => Except.ok (some { z := z, x := x, y := y })
  else
    Except.ok none

/-! ### png.py -/

/-- Observable content of a paletted PNG produced by `to_paletted_png`: the
per-pixel palette indices, the palette table, and the transparency index
recorded in the image metadata (if any). -/
structure PalettedPng where
  pixels : List (List ℕ)
  palette : List (ℕ × ℕ × ℕ)
  transparency : Option ℕ
deriving DecidableEq

/-- Embedding of `to_paletted_png` (png.py).  When the array is masked or an
explicit `nodata` is given, `nodata_index = len(palette)` is appended to the
palette (`np.append(palette, (0, 0, 0))`), then either the masked cells are
filled with that index (`arr.filled(nodata_index)`) or — only when the array
is not masked — cells equal to `nodata` are remapped to it; the index is
recorded as the transparency. -/
def to_paletted_png (a : MArr) (palette : List (ℕ × ℕ × ℕ)) (nodata : Option ℕ) :
    PalettedPng :=
  if is_masked a = true ∨ nodata ≠ none then
    let nodata_index := palette.length
    let palette2 := palette ++ [(0, 0, 0)]
    let pixels :=
      if is_masked a = true then filled a nodata_index
      else a.data.map (fun row => row.map (fun v =>
        if some v = nodata then nodata_index else v))
    { pixels := pixels, palette := palette2, transparency := some nodata_index }
  else
    { pixels := a.data, palette := palette, transparency := none }

/-- Embedding of `rasterio.dtypes.get_minimum_dtype` for non-negative
integer data: the narrowest unsigned dtype containing the (mask-aware)
maximum, falling back to `float64` beyond 32 bits. -/
def get_minimum_dtype (a : MArr) : String :=
  if mmax a ≤ 255 then "uint8"
  else if mmax a ≤ 65535 then "uint16"
  else if mmax a ≤ 4294967295 then "uint32"
  else "float64"

/-- Embedding of `get_smallest_image_type` (png.py). -/
def get_smallest_image_type (a : MArr) : Except String String :=
  if get_minimum_dtype a = "uint8" then Except.ok ("L")
  else if get_minimum_dtype a = "uint16" then Except.ok ("RGB")
  else if get_minimum_dtype a = "uint32" then
    (if mmax a ≤ 16777215 then Except.ok ("RGB") else Except.ok ("RGBA"))
  else Except.error ("NotImplementedError: data type is not yet supported")

/-- Embedding of the `MAX_VALUE` table (png.py). -/
def MAX_VALUE (t : String) : ℕ :=
  if t = "P" then 255
  else if t = "L" then 255
  else if t = "RGB" then 16777215
  else 4294967295

/-- Image data produced by `to_smallest_png`, by image type.  (The RGBA
packing branch of the source is unreachable: the type check raises first.) -/
inductive EncodedImage
  | grayscale (data : List (List ℕ))
  | rgb (data : List (List (List ℕ)))
  | paletted (png : PalettedPng)
deriving DecidableEq

/-- Image-type selection phase of `to_smallest_png`: automatic selection
when no `image_type` is supplied, otherwise validation against the allowed
names. -/
def selectImageType (a : MArr) (image_type : Option String) : Except String String :=
  match image_type with
  | none => get_smallest_image_type a
  | some t =>
      if t = "P" ∨ t = "L" ∨ t = "RGB" ∨ t = "RGBA" then Except.ok t
      else Except.error ("ValueError: Image type must be one of P, L, RGB, RGBA")

/-- Masked-fill phase of `to_smallest_png`: only when `is_masked(arr)`, fill
masked cells with the maximum value of the image type, or raise when the
(mask-aware) data maximum already reaches it. -/
def fillMasked (a : MArr) (it : String) : Except String (List (List ℕ)) :=
  if is_masked a = true then
    (if mmax a < MAX_VALUE it then Except.ok (filled a (MAX_VALUE it))
     else Except.error ("ValueError: Max of value range must be max of data type - 1 to allow max of data type to be nodata value"))
  else Except.ok a.data

/-- Byte-packing phase of `to_smallest_png` for the non-paletted types:
`astype("uint8")` is modelled as `% 256` per cell. -/
def packImage (it : String) (d : List (List ℕ)) : EncodedImage :=
  if it = "L" then EncodedImage.grayscale (d.map (fun row => row.map (fun v => v % 256)))
  else EncodedImage.rgb (to_rgb_array d)

/-- Embedding of `to_smallest_png` (png.py).  The dtype-kind check always
passes in this embedding (cells are unsigned integers).  Branch order follows
the source: image-type selection, the `P` branch, the `RGBA` rejection, the
masked fill (only when `is_masked`), then the `L` / `RGB` packing.
Exception propagation is `Except.bind`. -/
def to_smallest_png (a : MArr) (image_type : Option String) :
    Except String EncodedImage :=
  (selectImageType a image_type).bind (fun it =>
    if it = "P" then
      Except.ok (EncodedImage.paletted (to_paletted_png
        { data := a.data.map (fun row => row.map (fun v => v % 256)), mask := a.mask }
        ((List.range (mmax a + 1)).map (fun v => (0, 0, v % 256)))
        none))
    else if it = "RGBA" then
      Except.error ("ValueError: RGBA is not currently supported due to variable decoding in browsers")
    else
      (fillMasked a it).bind (fun d => Except.ok (packImage it d)))

/-! ### tiles.py -/

/-- Kernel-computable subtraction on `ℚ` (the library subtraction is marked
irreducible); proved equal to `Sub.sub` in `qsub_eq_sub` below. -/
def qsub (a b : ℚ) : ℚ :=
  Rat.divInt (a.num * (b.den : ℤ) - b.num * (a.den : ℤ)) ((a.den : ℤ) * (b.den : ℤ))

/-- Kernel-computable division on `ℚ`; proved equal to `Div.div` in
`qdiv_eq_div` below. -/
def qdiv (a b : ℚ) : ℚ :=
  Rat.divInt (a.num * (b.den : ℤ)) ((a.den : ℤ) * b.num)

/-- Embedding of Python 3 built-in `round(x, 0)` followed by `int(...)` on an
exact rational: the nearest integer, breaking ties toward the even
neighbour (banker's rounding).  `q.num.fdiv q.den` is the floor of `q` and
`r` its (scaled) fractional remainder, so `2 * r < den`, `= den`, `> den`
discriminate fractional part below, at, and above one half. -/
def pythonRound (q : ℚ) : ℤ :=
  let f := q.num.fdiv q.den
  let r := q.num - f * (q.den : ℤ)
  if 2 * r < (q.den : ℤ) then f
  else if (q.den : ℤ) < 2 * r then f + 1
  else if f % 2 = 0 then f else f + 1

/-- Web-mercator bounds `(west, south, east, north)` of a tile or of the
reprojected view, in projection units. -/
structure MercBounds where
  west : ℚ
  south : ℚ
  east : ℚ
  north : ℚ

/-- `left_offset = max(int(round((vrt.bounds[0] - tile_bounds[0]) / x_res, 0)), 0)`. -/
def left_offset (vb tb : MercBounds) (xres : ℚ) : ℕ :=
  (max (pythonRound (qdiv (qsub vb.west tb.west) xres)) 0).toNat

/-- `right_offset = max(int(round((tile_bounds[2] - vrt.bounds[2]) / x_res, 0)), 0)`. -/
def right_offset (vb tb : MercBounds) (xres : ℚ) : ℕ :=
  (max (pythonRound (qdiv (qsub tb.east vb.east) xres)) 0).toNat

/-- `bottom_offset = max(int(round((vrt.bounds[1] - tile_bounds[1]) / y_res, 0)), 0)`. -/
def bottom_offset (vb tb : MercBounds) (yres : ℚ) : ℕ :=
  (max (pythonRound (qdiv (qsub vb.south tb.south) yres)) 0).toNat

/-- `top_offset = max(int(round((tile_bounds[3] - vrt.bounds[3]) / y_res, 0)), 0)`. -/
def top_offset (vb tb : MercBounds) (yres : ℚ) : ℕ :=
  (max (pythonRound (qdiv (qsub tb.north vb.north) yres)) 0).toNat

/-- `width = tile_size - left_offset - right_offset` (a Python int, may be
negative in pathological geometry, hence `ℤ`). -/
def readWidth (vb tb : MercBounds) (xres : ℚ) (ts : ℕ) : ℤ :=
  (ts : ℤ) - left_offset vb tb xres - right_offset vb tb xres

/-- `height = tile_size - top_offset - bottom_offset`. -/
def readHeight (vb tb : MercBounds) (yres : ℚ) (ts : ℕ) : ℤ :=
  (ts : ℤ) - top_offset vb tb yres - bottom_offset vb tb yres

/-- The data `vrt.read(out_shape=(1, height, width), window=window)` returns,
with the band axis dropped.  The view's resampling is opaque, so the read is
a parameter `read` taking the requested output height and width. -/
def readData (vb tb : MercBounds) (xres yres : ℚ) (ts : ℕ)
    (read : ℕ → ℕ → List (List ℤ)) : List (List ℤ) :=
  read (readHeight vb tb yres ts).toNat (readWidth vb tb xres ts).toNat

/-- `np.all(data == vrt.nodata)` over the read data. -/
def allNodata (d : List (List ℤ)) (nodata : ℤ) : Bool :=
  d.all (fun row => row.all (fun v => v = nodata))

/-- The read returned an ndarray of the requested `(h, w)` output shape (the
warped view guarantees this for its windowed reads). -/
def shapeOk (d : List (List ℤ)) (h w : ℕ) : Prop :=
  d.length = h ∧ ∀ row ∈ d, row.length = w

instance (d : List (List ℤ)) (h w : ℕ) : Decidable (shapeOk d h w) := by
  unfold shapeOk; infer_instance

/-- Embedding of the padding branch of `_read_tile`: allocate a
`ts × ts` array filled with `nodata` and paste `data` with its upper-left
corner at pixel `(top, left)` (numpy slice assignment
`out[0, top : top + data.shape[1], left : left + data.shape[2]] = data`). -/
def pasteTile (ts top left : ℕ) (nodata : ℤ) (data : List (List ℤ)) :
    List (List ℤ) :=
  (List.range ts).map (fun i =>
    (List.range ts).map (fun j =>
      if top ≤ i ∧ i < top + data.length ∧ left ≤ j ∧ j < left + (data.headD []).length
      then (data.getD (i - top) []).getD (j - left) 0
      else nodata))

/-- Embedding of `_read_tile` (tiles.py).  `vb` are the view's bounds, `tb`
the tile's mercator bounds, `xres`/`yres` the per-axis output resolutions
derived from the scaled window transform, `read` the view's windowed read.
Returns `none` (the all-nodata sentinel) when every value read equals
`nodata`; otherwise the read data, padded into a full `ts × ts` tile when
the computed read size is smaller than the tile. -/
def read_tile (vb tb : MercBounds) (xres yres : ℚ) (ts : ℕ) (nodata : ℤ)
    (read : ℕ → ℕ → List (List ℤ)) : Option (List (List ℤ)) :=
  if allNodata (readData vb tb xres yres ts read) nodata = true then none
  else if readWidth vb tb xres ts ≠ (ts : ℤ) ∨ readHeight vb tb yres ts ≠ (ts : ℤ) then
    some (pasteTile ts (top_offset vb tb yres) (left_offset vb tb xres) nodata
      (readData vb tb xres yres ts read))
  else some (readData vb tb xres yres ts read)

/-! ### Specification-side definitions

These follow the words of the specification (not the source) and are only
used to compare the spec's claims against the embedded code. -/

/-- Rounding half away from zero, the policy the specification claims for
the tile offsets. -/
def roundHalfAwayFromZero (q : ℚ) : ℤ :=
  if 0 ≤ q then ⌊q + 1 / 2⌋ else ⌈q - 1 / 2⌉

/-- The left offset as the specification words it: the pixel distance
rounded half away from zero, clamped to be non-negative. -/
def claimedLeftOffset (vb tb : MercBounds) (xres : ℚ) : ℕ :=
  (max (roundHalfAwayFromZero ((vb.west - tb.west) / xres)) 0).toNat

/-! ### Generic helper lemmas -/

theorem getD_map_range {α : Type} (n : ℕ) (f : ℕ → α) (i : ℕ) (d : α) (h : i < n) :
    ((List.range n).map f).getD i d = f i := by
  rw [List.getD_eq_getElem?_getD, List.getElem?_map, List.getElem?_range h]
  rfl

theorem getD_zipWith {α β γ : Type} (f : α → β → γ) (l1 : List α) (l2 : List β)
    (i : ℕ) (d1 : α) (d2 : β) (dg : γ) (h1 : i < l1.length) (h2 : i < l2.length) :
    (List.zipWith f l1 l2).getD i dg = f (l1.getD i d1) (l2.getD i d2) := by
  induction l1 generalizing l2 i with
  | nil => simp at h1
  | cons x xs ih =>
      cases l2 with
      | nil => simp at h2
      | cons y ys =>
          cases i with
          | zero => rfl
          | succ i' =>
              simp only [List.zipWith_cons_cons, List.getD_cons_succ]
              exact ih ys i' (by simpa using h1) (by simpa using h2)

theorem getD_map' {α β : Type} (f : α → β) (l : List α) (i : ℕ) (d : β) (d' : α)
    (h : i < l.length) :
    (l.map f).getD i d = f (l.getD i d') := by
  induction l generalizing i with
  | nil => simp at h
  | cons x xs ih =>
      cases i with
      | zero => rfl
      | succ i' =>
          simp only [List.map_cons, List.getD_cons_succ]
          exact ih i' (by simpa using h)

theorem foldr_max_le_of_mem (l : List ℕ) (x : ℕ) (h : x ∈ l) :
    x ≤ l.foldr max 0 := by
  induction l with
  | nil => simp at h
  | cons y ys ih =>
      rcases List.mem_cons.mp h with rfl | h'
      · exact le_max_left _ _
      · exact le_trans (ih h') (le_max_right _ _)

/-! ### C2: 24-bit RGB packing round trip -/

theorem toRgbPixel_eq (v : ℕ) (hv : v ≤ 16777214) :
    toRgbPixel v = [v / 65536 % 256, v / 256 % 256, v % 256] := by
  have hm : v % 4294967296 = v := Nat.mod_eq_of_lt (by omega)
  simp [toRgbPixel, uint32Bytes, hm]

theorem decode_toRgbPixel (v : ℕ) (hv : v ≤ 16777214) :
    decodeRgbPixel (toRgbPixel v) = v := by
  rw [toRgbPixel_eq v hv]
  simp only [decodeRgbPixel, List.getD_cons_zero, List.getD_cons_succ]
  omega

/-- C2: `to_rgb_array` packs each value `v ≤ 2^24 - 2` into the channel
triple `[(v >> 16) & 0xFF, (v >> 8) & 0xFF, v & 0xFF]` (R, G, B), and
decoding each pixel as `R * 65536 + G * 256 + B` recovers the array
exactly. -/
theorem to_rgb_array_roundtrip (arr : List (List ℕ))
    (h : ∀ row ∈ arr, ∀ v ∈ row, v ≤ 16777214) :
    to_rgb_array arr =
      arr.map (fun row => row.map (fun v => [v / 65536 % 256, v / 256 % 256, v % 256]))
    ∧ (to_rgb_array arr).map (fun row => row.map decodeRgbPixel) = arr := by
  constructor
  · rw [to_rgb_array]
    exact List.map_congr_left (fun row hrow =>
      List.map_congr_left (fun v hv => toRgbPixel_eq v (h row hrow v hv)))
  · rw [to_rgb_array, List.map_map]
    have hrows : ∀ row ∈ arr,
        ((fun r : List (List ℕ) => r.map decodeRgbPixel) ∘
          (fun r : List ℕ => r.map toRgbPixel)) row = row := by
      intro row hrow
      simp only [Function.comp_apply, List.map_map]
      have hcell : ∀ v ∈ row, (decodeRgbPixel ∘ toRgbPixel) v = v := by
        intro v hv
        exact decode_toRgbPixel v (h row hrow v hv)
      rw [List.map_congr_left hcell]
      simp
    rw [List.map_congr_left hrows]
    simp

/-- C2 witness: concrete round trip at `[[0, 300, 16777214]]`. -/
theorem to_rgb_array_roundtrip_witness :
    to_rgb_array [[0, 300, 16777214]] = [[[0, 0, 0], [0, 1, 44], [255, 255, 254]]]
    ∧ (to_rgb_array [[0, 300, 16777214]]).map
        (fun row => row.map decodeRgbPixel) = [[0, 300, 16777214]] := by
  have h := to_rgb_array_roundtrip [[0, 300, 16777214]] (by decide)
  exact ⟨h.1.trans (by decide), h.2⟩

/-! ### C9: indexed raster builder -/

theorem assignLoop_not_mem (values : List ℤ) (v : ℤ) (i acc : ℕ) (h : v ∉ values) :
    assignLoop values v i acc = acc := by
  induction values generalizing i acc with
  | nil => rfl
  | cons w rest ih =>
      have h1 : ¬(w = v) := fun e => h (by simp [e])
      have h2 : v ∉ rest := fun e => h (by simp [e])
      simp only [assignLoop, if_neg h1]
      exact ih _ _ h2

theorem assignLoop_mem (values : List ℤ) (v : ℤ) (i acc j : ℕ)
    (hnd : values.Nodup) (hj : j < values.length) (hv : values.getD j 0 = v) :
    assignLoop values v i acc = i + j := by
  induction values generalizing i acc j with
  | nil => simp at hj
  | cons w rest ih =>
      obtain ⟨hw, hrest⟩ := List.nodup_cons.mp hnd
      cases j with
      | zero =>
          have hwv : w = v := hv
          have hvr : v ∉ rest := fun e => hw (hwv ▸ e)
          simp only [assignLoop, if_pos hwv]
          rw [assignLoop_not_mem rest v _ i hvr]
          omega
      | succ j' =>
          have hj' : j' < rest.length := by simpa using hj
          have hv' : rest.getD j' 0 = v := hv
          have hmem : v ∈ rest := by
            rw [← hv', List.getD_eq_getElem rest 0 hj']
            exact List.getElem_mem hj'
          have hwv : ¬(w = v) := fun e => hw (e ▸ hmem)
          simp only [assignLoop, if_neg hwv]
          rw [ih (i + 1) acc j' hrest hj' hv']
          omega

/-- C9 (amended): with fewer than 255 distinct values, `to_indexed_tif`
succeeds and assigns to every pixel the position of its value within
`values`, and `len(values)` to every pixel whose value is absent from the
list; the output metadata nodata is `len(values)`.  (The source no-data
value is never consulted: a no-data pixel maps to `len(values)` only through
absence of its raw value from the list.  Determinism is immediate: the
builder is a pure function of `data` and `values`.) -/
theorem to_indexed_tif_spec (data : List (List ℤ)) (srcNodata : ℤ) (values : List ℤ)
    (hnd : values.Nodup) (hlen : values.length < 255) :
    to_indexed_tif data srcNodata values =
      Except.ok
        { band := data.map (fun row => row.map (fun v => assignIndexed values v))
          nodata := values.length }
    ∧ (∀ v, v ∉ values → assignIndexed values v = values.length)
    ∧ (∀ j, j < values.length → assignIndexed values (values.getD j 0) = j) := by
  refine ⟨?_, ?_, ?_⟩
  · rw [to_indexed_tif, if_neg (by omega)]
  · intro v hv
    exact assignLoop_not_mem values v 0 values.length hv
  · intro j hj
    have h := assignLoop_mem values (values.getD j 0) 0 values.length j hnd hj rfl
    simpa using h

/-- C9 witness: two listed values, one absent value. -/
theorem to_indexed_tif_spec_witness :
    to_indexed_tif [[10], [30]] 99 [10, 20] =
      Except.ok { band := [[0], [2]], nodata := 2 }
    ∧ assignIndexed [10, 20] 30 = 2
    ∧ assignIndexed [10, 20] 10 = 0 := by
  have h := to_indexed_tif_spec [[10], [30]] 99 [10, 20] (by decide) (by decide)
  exact ⟨h.1.trans rfl, h.2.1 30 (by decide), h.2.2 0 (by decide)⟩

/-- C9 counterexample: a pixel holding the source no-data value `7` that is
listed in `values` is assigned its list position `0`, not
`len(values) = 1`, contradicting the claim that every no-data pixel maps to
`len(ordered_values)`. -/
theorem to_indexed_tif_nodata_in_values :
    to_indexed_tif [[7]] 7 [7] = Except.ok { band := [[0]], nodata := 1 }
    ∧ (0 : ℕ) ≠ [(7 : ℤ)].length := by
  exact ⟨rfl, by decide⟩

/-! ### C10: has_matching_attributes -/

/-- C10: `has_matching_attributes` raises `NameError` (the loop body reads
the unbound name `att`) for every non-empty input, and returns `True`
exactly when the input iterable is empty. -/
theorem has_matching_attributes_always_raises (rasters : List Raster) (attr : String) :
    ((∃ e, has_matching_attributes rasters attr = Except.error e) ↔ rasters ≠ [])
    ∧ (has_matching_attributes rasters attr = Except.ok true ↔ rasters = []) := by
  cases rasters <;> simp [has_matching_attributes]

/-! ### Masked-array lemmas -/

theorem filterUnmasked_cons (x : ℕ) (xs : List ℕ) (b : Bool) (bs : List Bool) :
    filterUnmasked (x :: xs) (b :: bs) =
      if b = true then filterUnmasked xs bs else x :: filterUnmasked xs bs := by
  cases b <;> simp [filterUnmasked]

theorem mem_fill_row (v : ℕ) (dr : List ℕ) (mr : List Bool) (y : ℕ)
    (h : y ∈ List.zipWith (fun x m => if m then v else x) dr mr) :
    y = v ∨ y ∈ filterUnmasked dr mr := by
  induction dr generalizing mr with
  | nil => simp at h
  | cons x xs ih =>
      cases mr with
      | nil => simp at h
      | cons b bs =>
          rw [List.zipWith_cons_cons] at h
          rw [filterUnmasked_cons]
          rcases List.mem_cons.mp h with h0 | h1
          · cases b with
            | true => left; simpa using h0
            | false => right; simp only [if_neg (by decide : ¬(false = true))]
                       simp [h0]
          · rcases ih bs h1 with h2 | h2
            · left; exact h2
            · right
              cases b
              · simp only [if_neg (by decide : ¬(false = true))]
                exact List.mem_cons_of_mem _ h2
              · simpa using h2

theorem mem_filledRows (v : ℕ) (y : ℕ) :
    ∀ (d : List (List ℕ)) (m : List (List Bool)) (row : List ℕ),
      row ∈ List.zipWith
        (fun drow mrow => List.zipWith (fun x b => if b then v else x) drow mrow) d m →
      y ∈ row → y = v ∨ y ∈ unmaskedOf d m := by
  intro d
  induction d with
  | nil => intro m row h; simp at h
  | cons dr ds ih =>
      intro m row h hy
      cases m with
      | nil => simp at h
      | cons mr ms =>
          rw [List.zipWith_cons_cons] at h
          have hun : unmaskedOf (dr :: ds) (mr :: ms) =
              filterUnmasked dr mr ++ unmaskedOf ds ms := rfl
          rcases List.mem_cons.mp h with h0 | h1
          · subst h0
            rcases mem_fill_row v dr mr y hy with h2 | h2
            · left; exact h2
            · right; rw [hun]; exact List.mem_append_left _ h2
          · rcases ih ms row h1 hy with h2 | h2
            · left; exact h2
            · right; rw [hun]; exact List.mem_append_right _ h2

theorem mem_filled (a : MArr) (v y : ℕ) (row : List ℕ)
    (hrow : row ∈ filled a v) (hy : y ∈ row) :
    y = v ∨ y ∈ unmaskedCells a :=
  mem_filledRows v y a.data a.mask row hrow hy

theorem filterUnmasked_all_false (dr : List ℕ) (mr : List Bool)
    (hlen : dr.length = mr.length) (hf : ∀ b ∈ mr, b = false) :
    filterUnmasked dr mr = dr := by
  induction dr generalizing mr with
  | nil => rfl
  | cons x xs ih =>
      cases mr with
      | nil => simp at hlen
      | cons b bs =>
          have hb : b = false := hf b (by simp)
          subst hb
          rw [filterUnmasked_cons, if_neg (by decide : ¬(false = true))]
          rw [ih bs (by simpa using hlen) (fun c hc => hf c (by simp [hc]))]

theorem data_mem_unmaskedOf :
    ∀ (d : List (List ℕ)) (m : List (List Bool)),
      maskShapeOk d m = true → (∀ row ∈ m, ∀ b ∈ row, b = false) →
      ∀ row ∈ d, ∀ y ∈ row, y ∈ unmaskedOf d m := by
  intro d
  induction d with
  | nil => intro m _ _ row h; simp at h
  | cons dr ds ih =>
      intro m hs hf row hrow y hy
      cases m with
      | nil => simp [maskShapeOk] at hs
      | cons mr ms =>
          simp only [maskShapeOk, Bool.and_eq_true, beq_iff_eq] at hs
          obtain ⟨hl, hs'⟩ := hs
          have hun : unmaskedOf (dr :: ds) (mr :: ms) =
              filterUnmasked dr mr ++ unmaskedOf ds ms := rfl
          rw [hun]
          rcases List.mem_cons.mp hrow with rfl | h1
          · apply List.mem_append_left
            rw [filterUnmasked_all_false row mr hl (fun b hb => hf mr (by simp) b hb)]
            exact hy
          · exact List.mem_append_right _
              (ih ms hs' (fun r hr => hf r (by simp [hr])) row h1 y hy)

theorem is_masked_false_iff (a : MArr) :
    is_masked a = false ↔ ∀ row ∈ a.mask, ∀ b ∈ row, b = false := by
  constructor
  · intro h row hrow b hb
    by_contra hbne
    have hbt : b = true := by
      cases b
      · exact absurd rfl hbne
      · rfl
    have ht : is_masked a = true := by
      simp only [is_masked, List.any_eq_true]
      exact ⟨row, hrow, b, hb, hbt⟩
    rw [h] at ht
    cases ht
  · intro h
    rw [← Bool.not_eq_true]
    intro habs
    simp only [is_masked, List.any_eq_true] at habs
    obtain ⟨row, hrow, b, hb, hbt⟩ := habs
    have := h row hrow b hb
    rw [this] at hbt
    cases hbt

theorem le_mmax_of_mem_unmasked (a : MArr) (y : ℕ) (h : y ∈ unmaskedCells a) :
    y ≤ mmax a :=
  foldr_max_le_of_mem _ y h

theorem cells_le_map_mod (d : List (List ℕ)) (h : ∀ row ∈ d, ∀ y ∈ row, y ≤ 255) :
    d.map (fun row => row.map (fun v => v % 256)) = d := by
  have hrows : ∀ row ∈ d, row.map (fun v => v % 256) = row := by
    intro row hrow
    have hcell : ∀ y ∈ row, y % 256 = y := by
      intro y hy
      exact Nat.mod_eq_of_lt (by have := h row hrow y hy; omega)
    rw [List.map_congr_left hcell]
    simp
  rw [List.map_congr_left hrows]
  simp

theorem maskShapeOk_length :
    ∀ (d : List (List ℕ)) (m : List (List Bool)), maskShapeOk d m = true →
      m.length = d.length ∧ ∀ i, (m.getD i []).length = (d.getD i []).length := by
  intro d
  induction d with
  | nil =>
      intro m h
      cases m with
      | nil => exact ⟨rfl, fun i => rfl⟩
      | cons _ _ => simp [maskShapeOk] at h
  | cons dr ds ih =>
      intro m h
      cases m with
      | nil => simp [maskShapeOk] at h
      | cons mr ms =>
          simp only [maskShapeOk, Bool.and_eq_true, beq_iff_eq] at h
          obtain ⟨hl, hs⟩ := h
          obtain ⟨ihl, ihr⟩ := ih ms hs
          refine ⟨by simpa using ihl, ?_⟩
          intro i
          cases i with
          | zero => simpa using hl.symm
          | succ i' => simpa using ihr i'

/-! ### C4: 255 as the single-channel no-data sentinel -/

/-- C4 (amended): in the single-channel path (automatic image type `L`,
i.e. mask-aware maximum at most 255), an input with at least one masked cell
has its masked cells filled with 255 before packing and the encoder raises
exactly when 255 also occurs as an unmasked value; an input with no masked
cells is encoded as-is, with no check that 255 is absent from the data. -/
theorem to_smallest_png_L_nodata (a : MArr) (hwf : wellFormed a)
    (hu : hasUnmasked a = true) (hmax : mmax a ≤ 255) :
    (is_masked a = true →
      (mmax a < 255 →
        to_smallest_png a none = Except.ok (EncodedImage.grayscale (filled a 255)))
      ∧ (mmax a = 255 → (to_smallest_png a none).isOk = false))
    ∧ (is_masked a = false →
      to_smallest_png a none = Except.ok (EncodedImage.grayscale a.data)) := by
  have hd : get_minimum_dtype a = "uint8" := by
    rw [get_minimum_dtype, if_pos hmax]
  have himg : selectImageType a none = Except.ok ("L") := by
    show get_smallest_image_type a = _
    rw [get_smallest_image_type, hd, if_pos rfl]
  have hstep : to_smallest_png a none =
      (fillMasked a "L").bind (fun d => Except.ok (packImage "L" d)) := by
    rw [to_smallest_png, himg]
    rfl
  constructor
  · intro hm
    constructor
    · intro hlt
      have hfm : fillMasked a "L" = Except.ok (filled a 255) := by
        rw [fillMasked, if_pos hm, if_pos (by show mmax a < MAX_VALUE ("L"); rw [show MAX_VALUE ("L") = 255 from rfl]; exact hlt)]
        rfl
      have hcells : ∀ row ∈ filled a 255, ∀ y ∈ row, y ≤ 255 := by
        intro row hrow y hy
        rcases mem_filled a 255 y row hrow hy with rfl | h2
        · exact le_refl _
        · exact le_trans (le_mmax_of_mem_unmasked a y h2) hmax
      rw [hstep, hfm]
      show Except.ok (packImage ("L") (filled a 255)) = _
      rw [packImage, if_pos rfl, cells_le_map_mod _ hcells]
    · intro h255
      have hfm : fillMasked a "L" = Except.error
          ("ValueError: Max of value range must be max of data type - 1 to allow max of data type to be nodata value") := by
        rw [fillMasked, if_pos hm, if_neg (by show ¬(mmax a < MAX_VALUE ("L")); rw [show MAX_VALUE ("L") = 255 from rfl, h255]; omega)]
      rw [hstep, hfm]
      rfl
  · intro hm
    have hfm : fillMasked a "L" = Except.ok a.data := by
      rw [fillMasked, if_neg (by rw [hm]; decide)]
    have hcells : ∀ row ∈ a.data, ∀ y ∈ row, y ≤ 255 := by
      intro row hrow y hy
      have hmem : y ∈ unmaskedCells a :=
        data_mem_unmaskedOf a.data a.mask hwf ((is_masked_false_iff a).mp hm) row hrow y hy
      exact le_trans (le_mmax_of_mem_unmasked a y hmem) hmax
    rw [hstep, hfm]
    show Except.ok (packImage ("L") a.data) = _
    rw [packImage, if_pos rfl, cells_le_map_mod _ hcells]

/-- C4 witness: one masked cell, valid values below 255 — the masked cell is
filled with 255. -/
theorem to_smallest_png_L_nodata_witness :
    to_smallest_png { data := [[10, 3]], mask := [[false, true]] } none =
      Except.ok (EncodedImage.grayscale [[10, 255]]) := by
  have h := to_smallest_png_L_nodata { data := [[10, 3]], mask := [[false, true]] }
    (by decide) (by decide) (by decide)
  exact ((h.1 (by decide)).1 (by decide)).trans rfl

/-- C4 counterexample: an unmasked array containing 255 as real data is
encoded without any error, contradicting the claim that the encoder raises
whenever 255 occurs as real data even when the input carries no mask. -/
theorem to_smallest_png_unmasked_255_ok :
    to_smallest_png { data := [[255]], mask := [[false]] } none =
      Except.ok (EncodedImage.grayscale [[255]]) := rfl

/-! ### C5: rejection of values at or above 2^24 -/

/-- C5: with automatic type selection, any array whose (mask-aware) maximum
is at least 2^24 makes `to_smallest_png` raise — the 4-channel `RGBA`
packing is rejected (and a value beyond 32 bits is rejected even earlier as
an unsupported dtype) — so no bytes with truncated values are ever
returned. -/
theorem to_smallest_png_rejects_high (a : MArr) (h : 16777216 ≤ mmax a) :
    ∃ e, to_smallest_png a none = Except.error e := by
  rcases le_or_lt (mmax a) 4294967295 with h32 | h32
  · have hd : get_minimum_dtype a = "uint32" := by
      rw [get_minimum_dtype, if_neg (by omega), if_neg (by omega), if_pos h32]
    have himg : selectImageType a none = Except.ok ("RGBA") := by
      show get_smallest_image_type a = _
      rw [get_smallest_image_type, hd]
      rw [if_neg (by decide), if_neg (by decide), if_pos rfl, if_neg (by omega)]
    exact ⟨_, by rw [to_smallest_png, himg]; rfl⟩
  · have hd : get_minimum_dtype a = "float64" := by
      rw [get_minimum_dtype, if_neg (by omega), if_neg (by omega), if_neg (by omega)]
    have himg : selectImageType a none =
        Except.error ("NotImplementedError: data type is not yet supported") := by
      show get_smallest_image_type a = _
      rw [get_smallest_image_type, hd]
      rw [if_neg (by decide), if_neg (by decide), if_neg (by decide)]
    exact ⟨_, by rw [to_smallest_png, himg]; rfl⟩

/-- C5 witness: the concrete value 2^24 is rejected. -/
theorem to_smallest_png_rejects_high_witness :
    16777216 ≤ mmax { data := [[16777216]], mask := [[false]] }
    ∧ (to_smallest_png { data := [[16777216]], mask := [[false]] } none).isOk = false := by
  constructor
  · decide
  · obtain ⟨e, he⟩ :=
      to_smallest_png_rejects_high { data := [[16777216]], mask := [[false]] } (by decide)
    rw [he]
    rfl

/-! ### C8: paletted no-data isolation -/

theorem cellD_filled (a : MArr) (v : ℕ) (i j : ℕ) (hwf : wellFormed a)
    (hi : i < a.data.length) (hj : j < (a.data.getD i []).length) :
    cellD (filled a v) i j 0 =
      if (a.mask.getD i []).getD j false = true then v else cellD a.data i j 0 := by
  obtain ⟨hlen, hrows⟩ := maskShapeOk_length a.data a.mask hwf
  have him : i < a.mask.length := by rw [hlen]; exact hi
  have hjm : j < (a.mask.getD i []).length := by rw [hrows i]; exact hj
  rw [cellD, filled, getD_zipWith _ a.data a.mask i [] [] [] hi him,
    getD_zipWith _ _ _ j 0 false 0 hj hjm]
  rfl

/-- C8 (amended): when the uint8 array carries masked cells or an explicit
`nodata` is supplied, `to_paletted_png` appends exactly one synthetic entry
(so the palette has N+1 entries) and records N as the transparency index;
when the array carries masked cells, exactly the masked cells are remapped
to index N (a cell merely equal to `nodata` keeps its value); only when the
array carries no masked cells are the cells equal to `nodata` remapped to
index N.  Valid cells keep their original value in either case. -/
theorem to_paletted_png_nodata (a : MArr) (palette : List (ℕ × ℕ × ℕ))
    (nodata : Option ℕ) (hwf : wellFormed a) (hN : palette.length ≤ 255)
    (hcond : is_masked a = true ∨ nodata ≠ none) :
    (to_paletted_png a palette nodata).palette = palette ++ [(0, 0, 0)]
    ∧ (to_paletted_png a palette nodata).palette.length = palette.length + 1
    ∧ (to_paletted_png a palette nodata).transparency = some palette.length
    ∧ (is_masked a = true →
        ∀ i j, i < a.data.length → j < (a.data.getD i []).length →
          cellD (to_paletted_png a palette nodata).pixels i j 0 =
            if (a.mask.getD i []).getD j false = true then palette.length
            else cellD a.data i j 0)
    ∧ (is_masked a = false →
        ∀ i j, i < a.data.length → j < (a.data.getD i []).length →
          cellD (to_paletted_png a palette nodata).pixels i j 0 =
            if some (cellD a.data i j 0) = nodata then palette.length
            else cellD a.data i j 0) := by
  rw [to_paletted_png, if_pos hcond]
  refine ⟨rfl, by simp, rfl, ?_, ?_⟩
  · intro hm i j hi hj
    simp only [hm, if_pos rfl]
    exact cellD_filled a palette.length i j hwf hi hj
  · intro hm i j hi hj
    simp only [hm]
    rw [if_neg (by decide : ¬(false = true))]
    rw [cellD, getD_map' _ a.data i [] [] hi, getD_map' _ _ j 0 0 hj]
    rfl

/-- C8 witness: a masked cell goes to the appended transparency index, a
valid cell keeps its value. -/
theorem to_paletted_png_nodata_witness :
    (to_paletted_png { data := [[2, 7]], mask := [[true, false]] } [(9, 9, 9)] none).palette
      = [(9, 9, 9), (0, 0, 0)]
    ∧ (to_paletted_png { data := [[2, 7]], mask := [[true, false]] } [(9, 9, 9)] none).transparency
      = some 1
    ∧ cellD (to_paletted_png { data := [[2, 7]], mask := [[true, false]] } [(9, 9, 9)] none).pixels 0 0 0 = 1
    ∧ cellD (to_paletted_png { data := [[2, 7]], mask := [[true, false]] } [(9, 9, 9)] none).pixels 0 1 0 = 7 := by
  have h := to_paletted_png_nodata { data := [[2, 7]], mask := [[true, false]] }
    [(9, 9, 9)] none (by decide) (by decide) (by decide)
  exact ⟨h.1.trans rfl, h.2.2.1,
    ((h.2.2.2.1 (by decide)) 0 0 (by decide) (by decide)).trans rfl,
    ((h.2.2.2.1 (by decide)) 0 1 (by decide) (by decide)).trans rfl⟩

/-- C8 counterexample: with both masked cells and an explicit `nodata = 5`,
the unmasked cell equal to 5 is not remapped to the no-data index
`len(palette) = 1` — it keeps its value — contradicting the claim that every
no-data cell (masked or equal to nodata) is remapped. -/
theorem to_paletted_png_masked_ignores_nodata :
    cellD (to_paletted_png { data := [[3, 5]], mask := [[true, false]] }
        [(1, 1, 1)] (some 5)).pixels 0 1 0 = 5
    ∧ (5 : ℕ) ≠ [((1 : ℕ), (1 : ℕ), (1 : ℕ))].length :=
  ⟨rfl, by decide⟩

/-! ### C7: directory-tree sink on the all-nodata sentinel -/

/-- C7 (code bug): for the all-nodata sentinel (`data = None`) the guard
`not np.all(data == src.nodata)` in `tif_to_tiles` still passes (in Python
`None == nodata` is `False`), so the sink calls `tile_renderer(None)` and
raises `AttributeError` instead of skipping the tile; a non-sentinel tile is
written to `outpath/z/x/y.png` unless every cell equals the nodata value. -/
theorem tif_to_tiles_step_sentinel (z x y : ℕ) (nodata : ℤ) :
    tif_to_tiles_step z x y none nodata =
      Except.error ("AttributeError: NoneType object has no attribute dtype")
    ∧ ∀ d : List (List ℤ),
        tif_to_tiles_step z x y (some d) nodata =
          if pyAllEqNodata (some d) nodata = true then Except.ok none
          else Except.ok (some { z := z, x := x, y := y }) := by
  constructor
  · rfl
  · intro d
    by_cases h : pyAllEqNodata (some d) nodata = true
    · simp [tif_to_tiles_step, h]
    · simp [tif_to_tiles_step, h]

/-! ### Rational arithmetic bridges -/

theorem qsub_eq_sub (a b : ℚ) : qsub a b = a - b := by
  rw [qsub, Rat.divInt_eq_div]
  have ha : ((a.den : ℚ)) ≠ 0 := by positivity
  have hb : ((b.den : ℚ)) ≠ 0 := by positivity
  conv_rhs => rw [← Rat.num_div_den a, ← Rat.num_div_den b]
  push_cast
  rw [div_sub_div _ _ ha hb]
  ring_nf

theorem qdiv_eq_div (a b : ℚ) : qdiv a b = a / b := by
  rw [qdiv, Rat.divInt_eq_div]
  rcases eq_or_ne b 0 with rfl | hb
  · simp
  · have ha : ((a.den : ℚ)) ≠ 0 := by positivity
    have hbd : ((b.den : ℚ)) ≠ 0 := by positivity
    have hb0 : (b.num : ℚ) ≠ 0 := by exact_mod_cast Rat.num_ne_zero.mpr hb
    conv_rhs => rw [← Rat.num_div_den a, ← Rat.num_div_den b]
    push_cast
    field_simp

/-! ### pythonRound: Python 3 banker's rounding -/

theorem fdiv_num_den_eq_floor (q : ℚ) : q.num.fdiv q.den = ⌊q⌋ := by
  rw [Rat.floor_def]
  exact Int.fdiv_eq_ediv q.num (Int.natCast_nonneg q.den)

theorem floor_remainder_eq (q : ℚ) :
    q - (⌊q⌋ : ℚ) = ((q.num - ⌊q⌋ * (q.den : ℤ) : ℤ) : ℚ) / (q.den : ℚ) := by
  have hden : ((q.den : ℚ)) ≠ 0 := by positivity
  have hq : (q : ℚ) * (q.den : ℚ) = (q.num : ℚ) := Rat.mul_den_eq_num q
  rw [eq_div_iff hden]
  push_cast
  linear_combination hq

theorem nearest_of (q : ℚ) (n : ℤ) (h : |q - (n : ℚ)| ≤ 1 / 2) :
    ∀ m : ℤ, |q - (n : ℚ)| ≤ |q - (m : ℚ)| := by
  intro m
  rcases eq_or_ne m n with rfl | hm
  · exact le_refl _
  · have h1 : (1 : ℚ) ≤ |(n : ℚ) - (m : ℚ)| := by
      have hz : (1 : ℤ) ≤ |n - m| := Int.one_le_abs (sub_ne_zero.mpr (fun e => hm e.symm))
      calc (1 : ℚ) = ((1 : ℤ) : ℚ) := by norm_num
        _ ≤ ((|n - m| : ℤ) : ℚ) := by exact_mod_cast hz
        _ = |(n : ℚ) - (m : ℚ)| := by push_cast; rfl
    have h2 : |(n : ℚ) - (m : ℚ)| ≤ |(n : ℚ) - q| + |q - (m : ℚ)| := abs_sub_le _ _ _
    have h3 : |(n : ℚ) - q| = |q - (n : ℚ)| := abs_sub_comm _ _
    linarith

theorem pythonRound_spec (q : ℚ) :
    (∀ m : ℤ, |q - (pythonRound q : ℚ)| ≤ |q - (m : ℚ)|)
    ∧ ((q - (pythonRound q : ℚ) = 1 / 2 ∨ q - (pythonRound q : ℚ) = -(1 / 2)) →
        Even (pythonRound q)) := by
  have hden0 : (0 : ℤ) < (q.den : ℤ) := by exact_mod_cast q.pos
  have hdenQ : (0 : ℚ) < (q.den : ℚ) := by positivity
  have hfd : q.num.fdiv q.den = ⌊q⌋ := fdiv_num_den_eq_floor q
  have hpr : pythonRound q =
      (if 2 * (q.num - ⌊q⌋ * (q.den : ℤ)) < (q.den : ℤ) then ⌊q⌋
       else if (q.den : ℤ) < 2 * (q.num - ⌊q⌋ * (q.den : ℤ)) then ⌊q⌋ + 1
       else if ⌊q⌋ % 2 = 0 then ⌊q⌋ else ⌊q⌋ + 1) := by
    rw [pythonRound, hfd]
  have hfrac : q - (⌊q⌋ : ℚ) =
      ((q.num - ⌊q⌋ * (q.den : ℤ) : ℤ) : ℚ) / (q.den : ℚ) := floor_remainder_eq q
  have h0 : (0 : ℚ) ≤ q - (⌊q⌋ : ℚ) := sub_nonneg.mpr (Int.floor_le q)
  have h1 : q - (⌊q⌋ : ℚ) < 1 := by
    have := Int.lt_floor_add_one q
    push_cast at this ⊢
    linarith
  have hcast : 2 * (q.num - ⌊q⌋ * (q.den : ℤ)) < (q.den : ℤ) ↔
      ((2 * (q.num - ⌊q⌋ * (q.den : ℤ)) : ℤ) : ℚ) < (((q.den : ℤ) : ℤ) : ℚ) := by
    exact_mod_cast Iff.rfl
  have hlt_iff : 2 * (q.num - ⌊q⌋ * (q.den : ℤ)) < (q.den : ℤ) ↔ q - (⌊q⌋ : ℚ) < 1 / 2 := by
    rw [hcast, hfrac, div_lt_iff hdenQ]
    constructor <;> intro h <;> push_cast at h ⊢ <;> linarith
  have hcast2 : (q.den : ℤ) < 2 * (q.num - ⌊q⌋ * (q.den : ℤ)) ↔
      (((q.den : ℤ) : ℤ) : ℚ) < ((2 * (q.num - ⌊q⌋ * (q.den : ℤ)) : ℤ) : ℚ) := by
    exact_mod_cast Iff.rfl
  have hgt_iff : (q.den : ℤ) < 2 * (q.num - ⌊q⌋ * (q.den : ℤ)) ↔ 1 / 2 < q - (⌊q⌋ : ℚ) := by
    rw [hcast2, hfrac, lt_div_iff hdenQ]
    constructor <;> intro h <;> push_cast at h ⊢ <;> linarith
  rcases lt_trichotomy (2 * (q.num - ⌊q⌋ * (q.den : ℤ))) ((q.den : ℤ)) with hc | hc | hc
  · have hn : pythonRound q = ⌊q⌋ := by rw [hpr, if_pos hc]
    have hhalf : |q - (pythonRound q : ℚ)| ≤ 1 / 2 := by
      rw [hn, abs_of_nonneg h0]
      have := hlt_iff.mp hc
      linarith
    refine ⟨nearest_of q _ hhalf, ?_⟩
    intro htie
    exfalso
    have hlt : q - (⌊q⌋ : ℚ) < 1 / 2 := hlt_iff.mp hc
    rcases htie with he | he <;> rw [hn] at he <;> linarith
  · have heq : q - (⌊q⌋ : ℚ) = 1 / 2 := by
      have hle : ¬(2 * (q.num - ⌊q⌋ * (q.den : ℤ)) < (q.den : ℤ)) := by omega
      have hge : ¬((q.den : ℤ) < 2 * (q.num - ⌊q⌋ * (q.den : ℤ))) := by omega
      have hnlt := fun h => hle (hlt_iff.mpr h)
      have hngt := fun h => hge (hgt_iff.mpr h)
      by_contra hne
      rcases lt_or_gt_of_ne hne with h | h
      · exact hnlt h
      · exact hngt h
    have hle : ¬(2 * (q.num - ⌊q⌋ * (q.den : ℤ)) < (q.den : ℤ)) := by omega
    have hge : ¬((q.den : ℤ) < 2 * (q.num - ⌊q⌋ * (q.den : ℤ))) := by omega
    by_cases hpar : ⌊q⌋ % 2 = 0
    · have hn : pythonRound q = ⌊q⌋ := by rw [hpr, if_neg hle, if_neg hge, if_pos hpar]
      have hhalf : |q - (pythonRound q : ℚ)| ≤ 1 / 2 := by
        rw [hn, heq, abs_of_nonneg (by norm_num : (0 : ℚ) ≤ 1 / 2)]
      exact ⟨nearest_of q _ hhalf, fun _ => by rw [hn]; exact Int.even_iff.mpr hpar⟩
    · have hn : pythonRound q = ⌊q⌋ + 1 := by rw [hpr, if_neg hle, if_neg hge, if_neg hpar]
      have hval : q - (pythonRound q : ℚ) = -(1 / 2) := by
        rw [hn]
        push_cast
        linarith
      have hhalf : |q - (pythonRound q : ℚ)| ≤ 1 / 2 := by
        rw [hval, abs_neg, abs_of_nonneg (by norm_num : (0 : ℚ) ≤ 1 / 2)]
      refine ⟨nearest_of q _ hhalf, fun _ => ?_⟩
      rw [hn]
      refine Int.even_iff.mpr ?_
      omega
  · have hn : pythonRound q = ⌊q⌋ + 1 := by
      rw [hpr, if_neg (by omega), if_pos hc]
    have hgt : 1 / 2 < q - (⌊q⌋ : ℚ) := hgt_iff.mp hc
    have hval : q - (pythonRound q : ℚ) = q - (⌊q⌋ : ℚ) - 1 := by
      rw [hn]
      push_cast
      ring
    have hhalf : |q - (pythonRound q : ℚ)| ≤ 1 / 2 := by
      rw [hval, abs_of_nonpos (by linarith)]
      linarith
    refine ⟨nearest_of q _ hhalf, ?_⟩
    intro htie
    exfalso
    rcases htie with he | he <;> rw [hval] at he <;> linarith

/-! ### C6: all-nodata sentinel iff -/

/-- C6: the sampler returns the all-nodata sentinel (`none`) if and only if
every value in the data read from the view equals the no-data value; in that
case no padded tile array is constructed (nothing is returned at all). -/
theorem read_tile_none_iff (vb tb : MercBounds) (xres yres : ℚ) (ts : ℕ)
    (nodata : ℤ) (read : ℕ → ℕ → List (List ℤ)) :
    read_tile vb tb xres yres ts nodata read = none
    ↔ allNodata (readData vb tb xres yres ts read) nodata = true := by
  rw [read_tile]
  by_cases h : allNodata (readData vb tb xres yres ts read) nodata = true
  · simp [h]
  · rw [if_neg h]
    constructor
    · intro habs
      exfalso
      by_cases hp : readWidth vb tb xres ts ≠ (ts : ℤ) ∨ readHeight vb tb yres ts ≠ (ts : ℤ)
      · rw [if_pos hp] at habs
        cases habs
      · rw [if_neg hp] at habs
        cases habs
    · intro habs
      exact absurd habs h

/-! ### C3: rounding policy of the tile offsets -/

/-- C3 (amended): each of the four padding offsets equals the pixel distance
between the view edge and the tile edge divided by that axis's resolution,
rounded with Python 3's `round` — round half to even (banker's rounding),
not round half away from zero — and then clamped to be non-negative.
`pythonRound` is characterised abstractly: it is a nearest integer, and on
exact-half ties it returns the even neighbour. -/
theorem tile_offsets_rounding (vb tb : MercBounds) (xres yres : ℚ) :
    left_offset vb tb xres = (max (pythonRound ((vb.west - tb.west) / xres)) 0).toNat
    ∧ right_offset vb tb xres = (max (pythonRound ((tb.east - vb.east) / xres)) 0).toNat
    ∧ bottom_offset vb tb yres = (max (pythonRound ((vb.south - tb.south) / yres)) 0).toNat
    ∧ top_offset vb tb yres = (max (pythonRound ((tb.north - vb.north) / yres)) 0).toNat
    ∧ ∀ q : ℚ, (∀ m : ℤ, |q - (pythonRound q : ℚ)| ≤ |q - (m : ℚ)|)
        ∧ ((q - (pythonRound q : ℚ) = 1 / 2 ∨ q - (pythonRound q : ℚ) = -(1 / 2)) →
            Even (pythonRound q)) := by
  refine ⟨?_, ?_, ?_, ?_, pythonRound_spec⟩
  · rw [left_offset, qsub_eq_sub, qdiv_eq_div]
  · rw [right_offset, qsub_eq_sub, qdiv_eq_div]
  · rw [bottom_offset, qsub_eq_sub, qdiv_eq_div]
  · rw [top_offset, qsub_eq_sub, qdiv_eq_div]

/-- C3 counterexample: a tile protruding half a pixel beyond the view's west
edge.  The code's offset (Python `round`, half to even) is 0, while
rounding the same quotient half away from zero gives 1, so the claimed
rounding policy does not match the code. -/
theorem tile_offsets_not_half_away :
    left_offset { west := mkRat 1 2, south := 0, east := 9, north := 9 }
      { west := 0, south := 0, east := 9, north := 9 } 1 = 0
    ∧ claimedLeftOffset { west := mkRat 1 2, south := 0, east := 9, north := 9 }
      { west := 0, south := 0, east := 9, north := 9 } 1 = 1
    ∧ left_offset { west := mkRat 1 2, south := 0, east := 9, north := 9 }
        { west := 0, south := 0, east := 9, north := 9 } 1 ≠
      claimedLeftOffset { west := mkRat 1 2, south := 0, east := 9, north := 9 }
        { west := 0, south := 0, east := 9, north := 9 } 1 := by
  have h0 : left_offset { west := mkRat 1 2, south := 0, east := 9, north := 9 }
      { west := 0, south := 0, east := 9, north := 9 } 1 = 0 := by decide
  have hhalf : (mkRat 1 2 : ℚ) = 1 / 2 := by
    rw [Rat.mkRat_eq_divInt, Rat.divInt_eq_div]
    norm_num
  have h1 : claimedLeftOffset { west := mkRat 1 2, south := 0, east := 9, north := 9 }
      { west := 0, south := 0, east := 9, north := 9 } 1 = 1 := by
    rw [claimedLeftOffset]
    have harg : ((mkRat 1 2 : ℚ) - 0) / 1 = 1 / 2 := by rw [hhalf]; norm_num
    rw [harg]
    have hround : roundHalfAwayFromZero (1 / 2) = 1 := by
      rw [roundHalfAwayFromZero, if_pos (by norm_num)]
      norm_num
    rw [hround]
    rfl
  exact ⟨h0, h1, by rw [h0, h1]; decide⟩

/-! ### C1: padding correctness of the tile sampler -/

theorem cellD_pasteTile (ts t l : ℕ) (nodata : ℤ) (data : List (List ℤ))
    (i j : ℕ) (hi : i < ts) (hj : j < ts) :
    cellD (pasteTile ts t l nodata data) i j 0 =
      if t ≤ i ∧ i < t + data.length ∧ l ≤ j ∧ j < l + (data.headD []).length
      then (data.getD (i - t) []).getD (j - l) 0
      else nodata := by
  rw [cellD, pasteTile, getD_map_range ts _ i [] hi, getD_map_range ts _ j 0 hj]

/-- C1: whenever the sampler returns a tile array (the non-sentinel case;
for an all-nodata read the sentinel is returned instead and no array is
built), the result is `ts × ts`, the read data occupies exactly rows
`[top, top + height)` and columns `[left, left + width)` — with
`height = ts - top - bottom` and `width = ts - left - right` the requested
read shape — and every other cell equals the no-data value. -/
theorem read_tile_padding (vb tb : MercBounds) (xres yres : ℚ) (ts : ℕ)
    (nodata : ℤ) (read : ℕ → ℕ → List (List ℤ)) (out : List (List ℤ))
    (hlr : left_offset vb tb xres + right_offset vb tb xres < ts)
    (htb : top_offset vb tb yres + bottom_offset vb tb yres < ts)
    (hshape : shapeOk (readData vb tb xres yres ts read)
      (readHeight vb tb yres ts).toNat (readWidth vb tb xres ts).toNat)
    (hres : read_tile vb tb xres yres ts nodata read = some out) :
    out.length = ts ∧ (∀ row ∈ out, row.length = ts) ∧
    ∀ i j, i < ts → j < ts →
      ((top_offset vb tb yres ≤ i
          ∧ i < top_offset vb tb yres + (readHeight vb tb yres ts).toNat
          ∧ left_offset vb tb xres ≤ j
          ∧ j < left_offset vb tb xres + (readWidth vb tb xres ts).toNat) →
        cellD out i j 0 =
          cellD (readData vb tb xres yres ts read)
            (i - top_offset vb tb yres) (j - left_offset vb tb xres) 0)
      ∧ (¬(top_offset vb tb yres ≤ i
          ∧ i < top_offset vb tb yres + (readHeight vb tb yres ts).toNat
          ∧ left_offset vb tb xres ≤ j
          ∧ j < left_offset vb tb xres + (readWidth vb tb xres ts).toNat) →
        cellD out i j 0 = nodata) := by
  have hH : (readHeight vb tb yres ts).toNat =
      ts - top_offset vb tb yres - bottom_offset vb tb yres := by
    rw [readHeight]; omega
  have hW : (readWidth vb tb xres ts).toNat =
      ts - left_offset vb tb xres - right_offset vb tb xres := by
    rw [readWidth]; omega
  have hHpos : 0 < (readHeight vb tb yres ts).toNat := by omega
  have hWpos : 0 < (readWidth vb tb xres ts).toNat := by omega
  have hdl : (readData vb tb xres yres ts read).length =
      (readHeight vb tb yres ts).toNat := hshape.1
  have hhd : ((readData vb tb xres yres ts read).headD []).length =
      (readWidth vb tb xres ts).toNat := by
    rcases hne : readData vb tb xres yres ts read with _ | ⟨r0, rs⟩
    · rw [hne] at hdl
      simp at hdl
      omega
    · have hr0 : r0 ∈ readData vb tb xres yres ts read := by
        rw [hne]; exact List.mem_cons_self r0 rs
      have := hshape.2 r0 hr0
      simpa using this
  by_cases hall : allNodata (readData vb tb xres yres ts read) nodata = true
  · rw [read_tile, if_pos hall] at hres
    cases hres
  · rw [read_tile, if_neg hall] at hres
    by_cases hpad : readWidth vb tb xres ts ≠ (ts : ℤ) ∨ readHeight vb tb yres ts ≠ (ts : ℤ)
    · rw [if_pos hpad] at hres
      have hout := Option.some.inj hres
      subst hout
      refine ⟨by simp [pasteTile], ?_, ?_⟩
      · intro row hrow
        rw [pasteTile] at hrow
        obtain ⟨i, hi, rfl⟩ := List.mem_map.mp hrow
        simp
      · intro i j hi hj
        have hcell := cellD_pasteTile ts (top_offset vb tb yres) (left_offset vb tb xres)
          nodata (readData vb tb xres yres ts read) i j hi hj
        rw [hdl, hhd] at hcell
        constructor
        · intro hin
          rw [hcell, if_pos hin]
          rfl
        · intro hout2
          rw [hcell, if_neg hout2]
    · rw [if_neg hpad] at hres
      have hout := Option.some.inj hres
      subst hout
      push_neg at hpad
      obtain ⟨hw, hh⟩ := hpad
      have hl0 : left_offset vb tb xres = 0 := by
        rw [readWidth] at hw; omega
      have hr0 : right_offset vb tb xres = 0 := by
        rw [readWidth] at hw; omega
      have ht0 : top_offset vb tb yres = 0 := by
        rw [readHeight] at hh; omega
      have hb0 : bottom_offset vb tb yres = 0 := by
        rw [readHeight] at hh; omega
      have hHts : (readHeight vb tb yres ts).toNat = ts := by omega
      have hWts : (readWidth vb tb xres ts).toNat = ts := by omega
      refine ⟨by rw [hdl, hHts], ?_, ?_⟩
      · intro row hrow
        rw [hshape.2 row hrow, hWts]
      · intro i j hi hj
        constructor
        · intro hin
          rw [ht0, hl0]
          simp
        · intro hout2
          exfalso
          apply hout2
          refine ⟨?_, ?_, ?_, ?_⟩ <;> omega

/-- C1 witness: a 3×3 tile protruding one pixel west and one pixel north of
the view; the 2×2 read lands at offset (1, 1) and the margin is no-data. -/
theorem read_tile_padding_witness :
    read_tile { west := 1, south := 0, east := 100, north := 2 }
        { west := 0, south := 0, east := 3, north := 3 } 1 1 3 0
        (fun _ _ => [[5, 6], [7, 8]]) =
      some [[0, 0, 0], [0, 5, 6], [0, 7, 8]]
    ∧ cellD [[(0 : ℤ), 0, 0], [0, 5, 6], [0, 7, 8]] 0 0 0 = 0
    ∧ cellD [[(0 : ℤ), 0, 0], [0, 5, 6], [0, 7, 8]] 1 1 0 = 5
    ∧ cellD [[(0 : ℤ), 0, 0], [0, 5, 6], [0, 7, 8]] 2 2 0 = 8 := by
  have h := read_tile_padding { west := 1, south := 0, east := 100, north := 2 }
    { west := 0, south := 0, east := 3, north := 3 } 1 1 3 0
    (fun _ _ => [[5, 6], [7, 8]]) [[0, 0, 0], [0, 5, 6], [0, 7, 8]]
    (by decide) (by decide) (by decide) (by decide)
  refine ⟨by decide, ?_, ?_, ?_⟩
  · exact ((h.2.2 0 0 (by decide) (by decide)).2 (by decide)).trans rfl
  · exact ((h.2.2 1 1 (by decide) (by decide)).1 (by decide)).trans rfl
  · exact ((h.2.2 2 2 (by decide) (by decide)).1 (by decide)).trans rfl

end Tilecutter
